import Mathlib

/-!
Verification of `src/feed_generators/openai_eng_blog.py`.

The script fetches the OpenAI engineering news page, extracts article
records from the anchors of the HTML, and writes an RSS feed.  We embed
the pure text-processing core shallowly:

* HTML parsing is done by the third-party library BeautifulSoup; the
  program only looks at the anchors `soup.find_all("a", href=True)`,
  reading `a.get("href", "")` and `a.get_text(strip=True)`.  We therefore
  model an HTML document by the list of its anchors, each an `Anchor`
  record holding the raw `href` attribute and the (already stripped)
  visible text.
* Strings are lists of characters (`List Char`); the character classes
  `\s` and `\d` of Python's `re` are modelled on ASCII.
* `datetime` values: every timestamp the program builds is a midnight UTC
  timestamp, so a timestamp is modelled by its rata-die day number
  (`daysFromCivil`), a positive natural for any valid date.
* Python's per-process string `hash` is a parameter `h : List Char → Int`.
-/

namespace OpenAIEngBlog

/-- Proleptic-Gregorian leap-year test, as `calendar.isleap` / `datetime`. -/
def leapYear (y : Nat) : Bool :=
  y % 4 == 0 && (y % 100 != 0 || y % 400 == 0)

/-- Days in the given month of the given year (`datetime` validity). -/
def daysInMonth (y m : Nat) : Nat :=
  [31, if leapYear y then 29 else 28, 31, 30, 31, 30, 31, 31, 30, 31, 30, 31].getD (m - 1) 31

/-- Days from the start of the year up to (excluding) month `m`. -/
def daysBeforeMonth (y m : Nat) : Nat :=
  [0, 31, 59, 90, 120, 151, 181, 212, 243, 273, 304, 334].getD (m - 1) 0
    + (if 2 < m && leapYear y then 1 else 0)

/-- Rata-die day number of the civil date `y-m-d` (UTC midnight), `y ≥ 1`.
`daysFromCivil 1 1 1 = 1`; adding one day adds one. -/
def daysFromCivil (y m d : Nat) : Nat :=
  365 * (y - 1) + ((y - 1) / 4 - (y - 1) / 100 + (y - 1) / 400) + daysBeforeMonth y m + d

/-- `stable_fallback_date` from the source: `abs(hash(identifier)) % 730`
days after the epoch `datetime(2023, 1, 1, tzinfo=pytz.UTC)`.  The Python
string hash is the parameter `h`. -/
def stable_fallback_date (h : List Char → Int) (identifier : List Char) : Nat :=
  daysFromCivil 2023 1 1 + (h identifier).natAbs % 730

/-- ASCII model of Python's regex class `\s`. -/
def isSpace (c : Char) : Bool :=
  c == ' ' || c == '\t' || c == '\n' || c == '\r' || c == '\x0b' || c == '\x0c'

/-- The three-letter English month abbreviations, in the order they occur
in the regex alternation `(Jan|Feb|...|Dec)`. -/
def monthAbbrevs : List (List Char) :=
  ["Jan".data, "Feb".data, "Mar".data, "Apr".data, "May".data, "Jun".data,
   "Jul".data, "Aug".data, "Sep".data, "Oct".data, "Nov".data, "Dec".data]

/-- Attempt of the regex `(Jan|…|Dec)\s+(\d{1,2}),\s+(\d{4})` at the head of
`l`; returns the matched characters (group 0).  Greedy matching with
backtracking collapses to: month abbreviation, a nonempty whitespace run,
a digit run of length 1 or 2 immediately followed by `,`, a nonempty
whitespace run, then four digits. -/
def dateMatchAt (l : List Char) : Option (List Char) :=
  match monthAbbrevs.find? (fun m => m.isPrefixOf l) with
  | none => none
  | some m =>
    let r0 := l.drop 3
    let ws1 := r0.takeWhile isSpace
    let r1 := r0.dropWhile isSpace
    if ws1.isEmpty then none else
    let ds := r1.takeWhile Char.isDigit
    let r2 := r1.dropWhile Char.isDigit
    if ds.length == 0 || 2 < ds.length then none else
    if r2.head? == some ',' then
      let r3 := r2.tail
      let ws2 := r3.takeWhile isSpace
      let r4 := r3.dropWhile isSpace
      if ws2.isEmpty then none else
      let ys := r4.take 4
      if ys.length == 4 && ys.all Char.isDigit then
        some (m ++ ws1 ++ ds ++ [','] ++ ws2 ++ ys)
      else none
    else none

/-- Leftmost match of the date regex, with its start index:
`re.search(r'(Jan|…|Dec)\s+(\d{1,2}),\s+(\d{4})', text)`. -/
def dateSearchPos (i : Nat) : List Char → Option (Nat × List Char)
  | [] => none
  | c :: rest =>
    match dateMatchAt (c :: rest) with
    | some s => some (i, s)
    | none => dateSearchPos (i + 1) rest

/-- `re.search(...)` returning only group 0, as the source uses it. -/
def dateSearch (l : List Char) : Option (List Char) :=
  (dateSearchPos 0 l).map (·.2)

/-- Python `str.strip()` (ASCII whitespace model). -/
def strip (l : List Char) : List Char :=
  ((l.dropWhile isSpace).reverse.dropWhile isSpace).reverse

/-- Python `text.replace("Engineering", "")`: delete every (left-to-right,
non-overlapping) occurrence of the 11 characters `Engineering`. -/
def removeEngineering : List Char → List Char
  | 'E' :: 'n' :: 'g' :: 'i' :: 'n' :: 'e' :: 'e' :: 'r' :: 'i' :: 'n' :: 'g' :: rest =>
    removeEngineering rest
  | c :: rest => c :: removeEngineering rest
  | [] => []

/-- Does `Engineering(Jan|…|Dec)` match at the head of `l` (11 + 3 chars)? -/
def engMonthAt (l : List Char) : Bool :=
  ("Engineering".data).isPrefixOf l && monthAbbrevs.any (fun m => m.isPrefixOf (l.drop 11))

/-- After `Engineering(Mon)`, can `.*$` consume the remainder `r`?  `.` does
not cross a newline and `$` matches only at the end of the string or just
before a final newline, so the match succeeds iff `r` contains no newline
other than possibly a single final one. -/
def engTailOk (r : List Char) : Bool :=
  !(r.dropLast.contains '\n')

/-- Full-pattern test for `Engineering(Jan|…|Dec).*$` at the head of `l`. -/
def engMatchAt (l : List Char) : Bool :=
  engMonthAt l && engTailOk (l.drop 14)

/-- `re.sub(r'Engineering(Jan|…|Dec).*$', '', text)`: remove everything
from the leftmost matchable occurrence to the end of the string (keeping a
final newline the match stopped short of); positions where the tail blocks
`.*$` are skipped, like the scan of `re.sub`. -/
def engSub : List Char → List Char
  | [] => []
  | c :: rest =>
    if engMatchAt (c :: rest) then
      if (rest.drop 13).contains '\n' then ['\n'] else []
    else
      c :: engSub rest

/-- Numeric value of an ASCII digit. -/
def digitVal (c : Char) : Nat := c.toNat - 48

/-- Lower-cased three-letter month abbreviations, for the case-insensitive
`%b` directive of `strptime`. -/
def monthAbbrevsLower : List (List Char) :=
  ["jan".data, "feb".data, "mar".data, "apr".data, "may".data, "jun".data,
   "jul".data, "aug".data, "sep".data, "oct".data, "nov".data, "dec".data]

/-- `%b` of `strptime`: case-insensitive month abbreviation at the head;
returns the month number (1–12) and the rest. -/
def monthDirective (l : List Char) : Option (Nat × List Char) :=
  match l with
  | c1 :: c2 :: c3 :: rest =>
    match monthAbbrevsLower.indexOf? [c1.toLower, c2.toLower, c3.toLower] with
    | some i => some (i + 1, rest)
    | none => none
  | _ => none

/-- `%d` of `strptime` followed by the literal `,` of the format: the
regex `(3[01]|[12]\d|0[1-9]|[1-9])` with backtracking into the comma.
Returns the day value and the rest after the comma. -/
def dayDirective (l : List Char) : Option (Nat × List Char) :=
  match l with
  | a :: b :: rest =>
    if ((a == '3' && (b == '0' || b == '1'))
        || ((a == '1' || a == '2') && b.isDigit)
        || (a == '0' && b.isDigit && b != '0'))
        && rest.head? == some ',' then
      some (10 * digitVal a + digitVal b, rest.tail)
    else if ('1' ≤ a && a ≤ '9') && b == ',' then
      some (digitVal a, rest)
    else none
  | _ => none

/-- `datetime.strptime(s, "%b %d, %Y")` followed by
`.replace(tzinfo=pytz.UTC)`, as a rata-die day number.  Whitespace in the
format matches `\s+`; the whole input must be consumed; building the
`datetime` checks `1 ≤ year` and that the day exists in the month, raising
`ValueError` (here: `none`) otherwise. -/
def strptime_bdY (l : List Char) : Option Nat :=
  match monthDirective l with
  | none => none
  | some (mo, r0) =>
    let ws1 := r0.takeWhile isSpace
    let r1 := r0.dropWhile isSpace
    if ws1.isEmpty then none else
    match dayDirective r1 with
    | none => none
    | some (d, r2) =>
      let ws2 := r2.takeWhile isSpace
      let r3 := r2.dropWhile isSpace
      if ws2.isEmpty then none else
      match r3 with
      | [y1, y2, y3, y4] =>
        if [y1, y2, y3, y4].all Char.isDigit then
          let y := 1000 * digitVal y1 + 100 * digitVal y2 + 10 * digitVal y3 + digitVal y4
          if 1 ≤ y && d ≤ daysInMonth y mo then some (daysFromCivil y mo d) else none
        else none
      | _ => none

/-- One anchor of the fetched page: the raw `href` attribute and the
stripped visible text (`a.get_text(strip=True)`). -/
structure Anchor where
  href : List Char
  text : List Char
deriving DecidableEq, Repr

/-- One article record of the parser (the ad-hoc dict of the source, with
`date` as a rata-die UTC-midnight day number). -/
structure Article where
  title : List Char
  link : List Char
  date : Nat
  category : List Char
  description : List Char
deriving DecidableEq, Repr

/-- `link = f"https://openai.com{href}" if href.startswith("/") else href`. -/
def resolveLink (href : List Char) : List Char :=
  if ("/".data).isPrefixOf href then "https://openai.com".data ++ href else href

/-- The anchor filter of the loop: `"/index/" in href` and `len(text) >= 20`. -/
def keepAnchor (a : Anchor) : Bool :=
  decide ("/index/".data <:+: a.href) && 20 ≤ a.text.length

/-- Title and date extraction for one anchor that passed the filter
(lines 56–86 of the source).  `h` is the Python string hash. -/
def mkArticle (h : List Char → Int) (a : Anchor) : Article :=
  match dateSearch a.text with
  | some s =>
    let title := strip (engSub a.text)
    let date :=
      match strptime_bdY s with
      | some d => d
      | none => stable_fallback_date h a.href
    { title := title, link := resolveLink a.href, date := date,
      category := "Engineering".data, description := title }
  | none =>
    let title := strip (removeEngineering a.text)
    { title := title, link := resolveLink a.href,
      date := stable_fallback_date h a.href,
      category := "Engineering".data, description := title }

/-- Body of the anchor loop: filter, build the record, drop it when its
resolved link already occurs in the accumulated list, else append. -/
def parseStep (h : List Char → Int) (acc : List Article) (a : Anchor) : List Article :=
  if keepAnchor a then
    let art := mkArticle h a
    if acc.any (fun b => b.link == art.link) then acc else acc ++ [art]
  else acc

/-- `parse_engineering_html`, over the anchor list of the document. -/
def parse_engineering_html (h : List Char → Int) (anchors : List Anchor) : List Article :=
  anchors.foldl (parseStep h) []

/-- Entry order of `generate_rss_feed`:
`sorted(articles, key=lambda x: x["date"], reverse=True)` — a stable sort,
descending by date. -/
def generate_rss_feed (articles : List Article) : List Article :=
  articles.mergeSort (fun a b => decide (b.date ≤ a.date))

/-- Body of the anchor loop under an exception oracle: `raises a = true`
means processing anchor `a` raises; the `except` clause logs a warning and
`continue`s, leaving the accumulated list untouched. -/
def parseStepExc (h : List Char → Int) (raises : Anchor → Bool)
    (acc : List Article) (a : Anchor) : List Article :=
  if raises a then acc else parseStep h acc a

/-- `parse_engineering_html` with the per-anchor `try/except` made
explicit through the oracle `raises`. -/
def parse_engineering_html_exc (h : List Char → Int) (raises : Anchor → Bool)
    (anchors : List Anchor) : List Article :=
  anchors.foldl (parseStepExc h raises) []

/-- `main`, from the parser on: returns the success flag and the feed
written to disk (`none` = no file write).  Fetching is outside the model;
`anchors` are the anchors of the fetched page. -/
def mainModel (h : List Char → Int) (anchors : List Anchor) : Bool × Option (List Article) :=
  let articles := parse_engineering_html h anchors
  if articles.isEmpty then (false, none)
  else (true, some (generate_rss_feed articles))

/-- The resolved links of an article list. -/
def links (arts : List Article) : List (List Char) := arts.map Article.link

/-- A concrete stand-in for the per-process Python string hash. -/
def hashZero : List Char → Int := fun _ => 0

/-- Another concrete hash behaviour, used to exhibit hash-dependent facts. -/
def hashLen : List Char → Int := fun l => (l.length : Int)

/-- A dateless anchor text long enough to pass the 20-character filter. -/
def navText : List Char := "engineering blog index page".data

/-- A qualifying anchor with a relative href and no date in its text. -/
def demoAnchorRel : Anchor := ⟨"/index/x".data, "a very long article headline".data⟩

/-- A qualifying anchor with an absolute href resolving to the same link
as `demoAnchorRel`, and no date in its text. -/
def demoAnchorAbs : Anchor := ⟨"https://openai.com/index/x".data, "another long article headline".data⟩

/-! ## Helper lemmas -/

theorem isDigit_not_isSpace {c : Char} (hd : c.isDigit = true) : isSpace c = false := by
  simp only [isSpace, Bool.or_eq_false_iff, beq_eq_false_iff_ne, ne_eq]
  repeat' apply And.intro
  all_goals (rintro rfl; exact absurd hd (by decide))

theorem takeWhile_append_of {p : Char → Bool} :
    ∀ (a b : List Char), (∀ x ∈ a, p x = true) → (∀ c, b.head? = some c → p c = false) →
      (a ++ b).takeWhile p = a ∧ (a ++ b).dropWhile p = b := by
  intro a
  induction a with
  | nil =>
    intro b _ hb
    cases b with
    | nil => exact ⟨rfl, rfl⟩
    | cons c cs =>
      have hc : p c = false := hb c rfl
      constructor
      · simp [List.takeWhile_cons, hc]
      · simp [List.dropWhile_cons, hc]
  | cons x xs ih =>
    intro b ha hb
    have hx : p x = true := ha x (by simp)
    have := ih b (fun y hy => ha y (by simp [hy])) hb
    constructor
    · simp [List.takeWhile_cons, hx, this.1]
    · simp [List.dropWhile_cons, hx, this.2]

theorem find?_of_unique {p : List Char → Bool} :
    ∀ {ms : List (List Char)} {m : List Char}, m ∈ ms → p m = true →
      (∀ x ∈ ms, p x = true → x = m) → ms.find? p = some m := by
  intro ms
  induction ms with
  | nil => intro m hm; cases hm
  | cons y ys ih =>
    intro m hm hpm huniq
    by_cases hy : p y = true
    · have he : y = m := huniq y (by simp) hy
      subst he
      exact List.find?_cons_of_pos _ hy
    · have hym : y ≠ m := fun he => hy (he ▸ hpm)
      have hm' : m ∈ ys := by
        rcases List.mem_cons.mp hm with h | h
        · exact absurd h.symm hym
        · exact h
      rw [List.find?_cons_of_neg _ hy]
      exact ih hm' hpm (fun x hx => huniq x (by simp [hx]))

theorem monthAbbrevs_len : ∀ m ∈ monthAbbrevs, m.length = 3 := by decide

theorem strip_within (l : List Char) : strip l <:+: l := by
  unfold strip
  have h1 : l.dropWhile isSpace <:+ l := List.dropWhile_suffix isSpace
  have h2 : (l.dropWhile isSpace).reverse.dropWhile isSpace <:+
      (l.dropWhile isSpace).reverse := List.dropWhile_suffix isSpace
  have h3 : ((l.dropWhile isSpace).reverse.dropWhile isSpace).reverse <+:
      l.dropWhile isSpace := by
    have := List.reverse_prefix.mpr h2
    simpa using this
  exact h3.isInfix.trans h1.isInfix

theorem dateMatchAt_shape {l s : List Char} (hm : dateMatchAt l = some s) :
    ∃ m ws1 ds ws2 ys,
      m ∈ monthAbbrevs ∧
      s = m ++ ws1 ++ ds ++ [','] ++ ws2 ++ ys ∧
      ws1 ≠ [] ∧ (∀ c ∈ ws1, isSpace c = true) ∧
      ds ≠ [] ∧ ds.length ≤ 2 ∧ (∀ c ∈ ds, c.isDigit = true) ∧
      ws2 ≠ [] ∧ (∀ c ∈ ws2, isSpace c = true) ∧
      ys.length = 4 ∧ (∀ c ∈ ys, c.isDigit = true) := by
  unfold dateMatchAt at hm
  cases hfind : monthAbbrevs.find? (fun m => m.isPrefixOf l) with
  | none => rw [hfind] at hm; exact absurd hm (by simp)
  | some m =>
    rw [hfind] at hm
    dsimp only at hm
    by_cases h2 : ((l.drop 3).takeWhile isSpace).isEmpty = true
    · rw [if_pos h2] at hm; exact absurd hm (by simp)
    · rw [if_neg h2] at hm
      set ws1 := (l.drop 3).takeWhile isSpace with hws1e
      set r1 := (l.drop 3).dropWhile isSpace with hr1e
      set ds := r1.takeWhile Char.isDigit with hdse
      set r2 := r1.dropWhile Char.isDigit with hr2e
      by_cases h3 : (ds.length == 0 || decide (2 < ds.length)) = true
      · rw [if_pos h3] at hm; exact absurd hm (by simp)
      · rw [if_neg h3] at hm
        by_cases h4 : (r2.head? == some ',') = true
        · rw [if_pos h4] at hm
          set ws2 := r2.tail.takeWhile isSpace with hws2e
          set r4 := r2.tail.dropWhile isSpace with hr4e
          by_cases h5 : ws2.isEmpty = true
          · rw [if_pos h5] at hm; exact absurd hm (by simp)
          · rw [if_neg h5] at hm
            set ys := r4.take 4 with hyse
            by_cases h6 : (ys.length == 4 && ys.all Char.isDigit) = true
            · rw [if_pos h6] at hm
              have hs := Option.some.inj hm
              simp only [Bool.and_eq_true, beq_iff_eq, List.all_eq_true] at h6
              simp only [Bool.or_eq_true, beq_iff_eq, decide_eq_true_eq, not_or] at h3
              refine ⟨m, ws1, ds, ws2, ys, List.mem_of_find?_eq_some hfind, hs.symm,
                List.isEmpty_eq_false.mp (Bool.not_eq_true _ ▸ h2),
                fun c hc => List.mem_takeWhile_imp hc,
                fun hnil => h3.1 (by simp [hnil]),
                by omega,
                fun c hc => List.mem_takeWhile_imp hc,
                List.isEmpty_eq_false.mp (Bool.not_eq_true _ ▸ h5),
                fun c hc => List.mem_takeWhile_imp hc,
                h6.1, h6.2⟩
            · rw [if_neg h6] at hm; exact absurd hm (by simp)
        · rw [if_neg h4] at hm; exact absurd hm (by simp)

theorem dateMatchAt_build {m ws1 ds ws2 ys t' : List Char}
    (hmem : m ∈ monthAbbrevs)
    (hws1 : ws1 ≠ []) (hws1s : ∀ c ∈ ws1, isSpace c = true)
    (hds : ds ≠ []) (hds2 : ds.length ≤ 2) (hdsd : ∀ c ∈ ds, c.isDigit = true)
    (hws2 : ws2 ≠ []) (hws2s : ∀ c ∈ ws2, isSpace c = true)
    (hys : ys.length = 4) (hysd : ∀ c ∈ ys, c.isDigit = true) :
    dateMatchAt (m ++ (ws1 ++ (ds ++ ([','] ++ (ws2 ++ (ys ++ t')))))) =
      some (m ++ ws1 ++ ds ++ [','] ++ ws2 ++ ys) := by
  have hm3 : m.length = 3 := monthAbbrevs_len m hmem
  have hysne : ys ≠ [] := by intro h; rw [h] at hys; exact absurd hys (by decide)
  set L := m ++ (ws1 ++ (ds ++ ([','] ++ (ws2 ++ (ys ++ t'))))) with hL
  have hfind : monthAbbrevs.find? (fun x => x.isPrefixOf L) = some m := by
    apply find?_of_unique hmem
    · rw [List.isPrefixOf_iff_prefix, hL]; exact List.prefix_append m _
    · intro x hx hpx
      rw [List.isPrefixOf_iff_prefix] at hpx
      have hx3 : x.length = 3 := monthAbbrevs_len x hx
      have h1 : x = L.take 3 := by
        have := List.prefix_iff_eq_take.mp hpx; rwa [hx3] at this
      have h2 : m = L.take 3 := by
        have hmL : m <+: L := by rw [hL]; exact List.prefix_append m _
        have := List.prefix_iff_eq_take.mp hmL; rwa [hm3] at this
      rw [h1, h2]
  have hdrop : L.drop 3 = ws1 ++ (ds ++ ([','] ++ (ws2 ++ (ys ++ t')))) := by
    rw [hL]; exact List.drop_left' hm3
  have hd0 : ∀ c, (ds ++ ([','] ++ (ws2 ++ (ys ++ t')))).head? = some c → isSpace c = false := by
    intro c hc
    cases ds with
    | nil => exact absurd rfl hds
    | cons d dtl =>
      simp only [List.cons_append, List.head?_cons, Option.some.injEq] at hc
      subst hc
      exact isDigit_not_isSpace (hdsd d (by simp))
  have hsplit1 := @takeWhile_append_of isSpace ws1 (ds ++ ([','] ++ (ws2 ++ (ys ++ t')))) hws1s hd0
  have hc0 : ∀ c, (([','] ++ (ws2 ++ (ys ++ t'))) : List Char).head? = some c → Char.isDigit c = false := by
    intro c hc
    simp only [List.cons_append, List.head?_cons, Option.some.injEq] at hc
    rw [← hc]; decide
  have hsplit2 := @takeWhile_append_of Char.isDigit ds ([','] ++ (ws2 ++ (ys ++ t'))) hdsd hc0
  have hy0 : ∀ c, ((ys ++ t') : List Char).head? = some c → isSpace c = false := by
    intro c hc
    cases ys with
    | nil => exact absurd rfl hysne
    | cons y ytl =>
      simp only [List.cons_append, List.head?_cons, Option.some.injEq] at hc
      subst hc
      exact isDigit_not_isSpace (hysd y (by simp))
  have hsplit3 := @takeWhile_append_of isSpace ws2 (ys ++ t') hws2s hy0
  have htake4 : (ys ++ t').take 4 = ys := List.take_left' hys
  have hg1 : ¬ (ws1.isEmpty = true) := by
    simp [List.isEmpty_eq_false, hws1]
  have hg2 : ¬ ((ds.length == 0 || decide (2 < ds.length)) = true) := by
    simp only [Bool.or_eq_true, beq_iff_eq, decide_eq_true_eq, not_or]
    refine ⟨fun h0 => hds (List.eq_nil_of_length_eq_zero h0), by omega⟩
  have hg3 : ((([','] ++ (ws2 ++ (ys ++ t'))) : List Char).head? == some ',') = true := by
    simp
  have hg4 : ¬ (ws2.isEmpty = true) := by simp [List.isEmpty_eq_false, hws2]
  have hg5 : (ys.length == 4 && ys.all Char.isDigit) = true := by
    simp only [Bool.and_eq_true, beq_iff_eq, List.all_eq_true]
    exact ⟨hys, hysd⟩
  unfold dateMatchAt
  rw [hfind]
  dsimp only
  rw [hdrop]
  rw [hsplit1.1, hsplit1.2]
  rw [if_neg hg1]
  rw [hsplit2.1, hsplit2.2]
  rw [if_neg hg2, if_pos hg3]
  dsimp only [List.cons_append, List.tail_cons, List.nil_append]
  rw [hsplit3.1, hsplit3.2]
  rw [if_neg hg4, htake4, if_pos hg5]

theorem dateMatchAt_mono {l l' s : List Char} (hm : dateMatchAt l = some s)
    (hp : s <+: l') : dateMatchAt l' = some s := by
  obtain ⟨m, ws1, ds, ws2, ys, hmem, hs, hws1, hws1s, hds, hds2, hdsd, hws2, hws2s, hys, hysd⟩ :=
    dateMatchAt_shape hm
  obtain ⟨t', rfl⟩ := hp
  subst hs
  have := @dateMatchAt_build m ws1 ds ws2 ys t' hmem hws1 hws1s hds hds2 hdsd hws2 hws2s hys hysd
  simpa [List.append_assoc] using this

theorem dateSearchPos_shift : ∀ (l : List Char) (i : Nat),
    dateSearchPos i l = (dateSearchPos 0 l).map (fun q => (q.1 + i, q.2)) := by
  intro l
  induction l with
  | nil => intro i; rfl
  | cons c rest ih =>
    intro i
    unfold dateSearchPos
    cases hdm : dateMatchAt (c :: rest) with
    | some s => simp
    | none =>
      rw [ih (i + 1), ih 1, Option.map_map]
      cases dateSearchPos 0 rest with
      | none => rfl
      | some q => simp [Function.comp]; omega

theorem dateSearchPos_spec : ∀ {l : List Char} {p : Nat} {s : List Char},
    dateSearchPos 0 l = some (p, s) →
    dateMatchAt (l.drop p) = some s ∧ ∀ q < p, dateMatchAt (l.drop q) = none := by
  intro l
  induction l with
  | nil => intro p s h; exact absurd h (by simp [dateSearchPos])
  | cons c rest ih =>
    intro p s h
    unfold dateSearchPos at h
    cases hdm : dateMatchAt (c :: rest) with
    | some s0 =>
      rw [hdm] at h
      have h' := Option.some.inj h
      have hp : p = 0 := (Prod.mk.injEq _ _ _ _ ▸ h').1.symm
      have hs : s = s0 := (Prod.mk.injEq _ _ _ _ ▸ h').2.symm
      subst hp; subst hs
      exact ⟨by simpa using hdm, fun q hq => absurd hq (Nat.not_lt_zero q)⟩
    | none =>
      rw [hdm] at h
      rw [dateSearchPos_shift rest 1] at h
      cases hbase : dateSearchPos 0 rest with
      | none => rw [hbase] at h; exact absurd h (by simp)
      | some q =>
        rw [hbase] at h
        have h' := Option.some.inj h
        have hp : p = q.1 + 1 := by
          have := congrArg Prod.fst h'; simpa using this.symm
        have hs : q.2 = s := by
          have := congrArg Prod.snd h'; simpa using this
        obtain ⟨qi, qs⟩ := q
        dsimp at hp hs
        subst hp; subst hs
        obtain ⟨hmatch, hleft⟩ := ih (by rw [hbase])
        refine ⟨by simpa using hmatch, ?_⟩
        intro q hq
        cases q with
        | zero => simpa using hdm
        | succ q' =>
          rw [List.drop_succ_cons]
          exact hleft q' (by omega)

theorem engSub_eq_take {l : List Char} (hnl : ¬ '\n' ∈ l) :
    ∃ q, engSub l = l.take q ∧ ∀ p, engMatchAt (l.drop p) = true → q ≤ p := by
  induction l with
  | nil => exact ⟨0, rfl, fun p _ => Nat.zero_le p⟩
  | cons c rest ih =>
    by_cases hm : engMatchAt (c :: rest) = true
    · refine ⟨0, ?_, fun p _ => Nat.zero_le p⟩
      have hmem : ¬ '\n' ∈ rest.drop 13 :=
        fun hx => hnl (List.mem_cons_of_mem c (List.mem_of_mem_drop hx))
      have hcont : (rest.drop 13).contains '\n' = false := by
        simpa [List.contains] using hmem
      have hval : engSub (c :: rest) = [] := by
        unfold engSub
        rw [if_pos hm, if_neg (by simp [List.contains]; exact hmem)]
      simpa using hval
    · have hnl' : ¬ '\n' ∈ rest := fun hmem => hnl (List.mem_cons_of_mem c hmem)
      obtain ⟨q, hq, hmin⟩ := ih hnl'
      refine ⟨q + 1, by simp [engSub, hm, hq], ?_⟩
      intro p hp
      cases p with
      | zero => exact absurd (by simpa using hp) hm
      | succ p' =>
        have := hmin p' (by simpa using hp)
        omega

theorem digitVal_pos {b : Char} (hb : b.isDigit = true) (hb0 : b ≠ '0') : 1 ≤ digitVal b := by
  simp only [Char.isDigit, Bool.and_eq_true, decide_eq_true_eq] at hb
  obtain ⟨h1, _⟩ := hb
  have h48 : 48 ≤ b.val.toNat := UInt32.le_def.mp h1
  have hne : b.val.toNat ≠ 48 := by
    intro h
    exact hb0 (Char.ext (UInt32.ext (by simpa using h)))
  unfold digitVal Char.toNat
  omega

theorem dayDirective_pos {l rest : List Char} {d : Nat}
    (h : dayDirective l = some (d, rest)) : 1 ≤ d := by
  cases l with
  | nil => exact absurd h (by simp [dayDirective])
  | cons a l1 =>
    cases l1 with
    | nil => exact absurd h (by simp [dayDirective])
    | cons b r =>
      simp only [dayDirective] at h
      split at h
      next h1 =>
        have hd : d = 10 * digitVal a + digitVal b := by
          have := Option.some.inj h
          exact (congrArg Prod.fst this).symm
        simp only [Bool.and_eq_true, Bool.or_eq_true, beq_iff_eq, bne_iff_ne] at h1
        rcases h1.1 with ((⟨rfl, _⟩ | ⟨hha, _⟩) | ⟨⟨rfl, hbd⟩, hb0⟩)
        · rw [hd]
          have h3 : digitVal '3' = 3 := rfl
          omega
        · rcases hha with rfl | rfl <;> rw [hd]
          · have h3 : digitVal '1' = 1 := rfl
            omega
          · have h3 : digitVal '2' = 2 := rfl
            omega
        · have := digitVal_pos hbd hb0
          rw [hd]
          omega
      next =>
        split at h
        next h2 =>
          have hd : d = digitVal a := by
            have := Option.some.inj h
            exact (congrArg Prod.fst this).symm
          simp only [Bool.and_eq_true, decide_eq_true_eq, beq_iff_eq] at h2
          have ha1 : 49 ≤ a.val.toNat := UInt32.le_def.mp h2.1.1
          rw [hd]
          unfold digitVal Char.toNat
          omega
        next => exact absurd h (by simp)

theorem daysFromCivil_ge {y m d : Nat} : d ≤ daysFromCivil y m d := by
  unfold daysFromCivil
  exact Nat.le_add_left d _

theorem strptime_bdY_pos {l : List Char} {n : Nat} (h : strptime_bdY l = some n) : 1 ≤ n := by
  unfold strptime_bdY at h
  cases hmo : monthDirective l with
  | none => rw [hmo] at h; exact absurd h (by simp)
  | some p =>
    obtain ⟨mo, r0⟩ := p
    rw [hmo] at h
    dsimp only at h
    split at h
    next => exact absurd h (by simp)
    next =>
      cases hday : dayDirective (r0.dropWhile isSpace) with
      | none => rw [hday] at h; exact absurd h (by simp)
      | some q =>
        obtain ⟨d, r2⟩ := q
        rw [hday] at h
        dsimp only at h
        split at h
        next => exact absurd h (by simp)
        next =>
          split at h
          next c1 c2 c3 c4 heq =>
            split at h
            next =>
              split at h
              next =>
                have hn := Option.some.inj h
                have hd := dayDirective_pos hday
                have hge : d ≤ daysFromCivil
                    (1000 * digitVal c1 + 100 * digitVal c2 + 10 * digitVal c3 + digitVal c4) mo d :=
                  daysFromCivil_ge
                omega
              next => exact absurd h (by simp)
            next => exact absurd h (by simp)
          next => exact absurd h (by simp)

theorem stable_fallback_date_pos (h : List Char → Int) (id' : List Char) :
    0 < stable_fallback_date h id' := by
  unfold stable_fallback_date
  have : 0 < daysFromCivil 2023 1 1 := by decide
  omega

theorem mkArticle_link (h : List Char → Int) (a : Anchor) :
    (mkArticle h a).link = resolveLink a.href := by
  unfold mkArticle
  cases hds : dateSearch a.text with
  | none => rfl
  | some s => rfl

theorem mkArticle_date_pos (h : List Char → Int) (a : Anchor) :
    0 < (mkArticle h a).date := by
  unfold mkArticle
  cases hds : dateSearch a.text with
  | none => exact stable_fallback_date_pos h a.href
  | some s =>
    dsimp only
    cases hsp : strptime_bdY s with
    | none => exact stable_fallback_date_pos h a.href
    | some n => exact strptime_bdY_pos hsp

theorem mkArticle_title_of_found {h : List Char → Int} {a : Anchor} {s : List Char}
    (hds : dateSearch a.text = some s) :
    (mkArticle h a).title = strip (engSub a.text) := by
  unfold mkArticle
  rw [hds]

theorem mkArticle_date_of_fallback {h : List Char → Int} {a : Anchor}
    (hds : dateSearch a.text = none ∨
      ∃ s, dateSearch a.text = some s ∧ strptime_bdY s = none) :
    (mkArticle h a).date = stable_fallback_date h a.href := by
  unfold mkArticle
  rcases hds with hds | ⟨s, hds, hsp⟩
  · rw [hds]
  · rw [hds]
    dsimp only
    rw [hsp]

theorem parse_foldl_spec (h : List Char → Int) :
    ∀ (rest : List Anchor) (acc : List Article), (links acc).Nodup →
      (links (rest.foldl (parseStep h) acc)).Nodup ∧
      ∀ art ∈ rest.foldl (parseStep h) acc,
        art ∈ acc ∨
        (¬ art.link ∈ links acc ∧
          ∃ a, rest.find? (fun x => keepAnchor x && (resolveLink x.href == art.link)) = some a ∧
            art = mkArticle h a) := by
  intro rest
  induction rest with
  | nil =>
    intro acc hn
    exact ⟨hn, fun art hart => Or.inl hart⟩
  | cons x xs ih =>
    intro acc hn
    simp only [List.foldl_cons]
    by_cases hk : keepAnchor x = true
    · by_cases hdup : (acc.any (fun b => b.link == (mkArticle h x).link)) = true
      · have hstep : parseStep h acc x = acc := by
          unfold parseStep
          rw [if_pos hk]
          dsimp only
          rw [if_pos hdup]
        rw [hstep]
        have hlinkmem : resolveLink x.href ∈ links acc := by
          rw [List.any_eq_true] at hdup
          obtain ⟨b, hb, hbeq⟩ := hdup
          rw [beq_iff_eq] at hbeq
          rw [← mkArticle_link h x, ← hbeq]
          exact List.mem_map_of_mem Article.link hb
        obtain ⟨hn', hmem⟩ := ih acc hn
        refine ⟨hn', ?_⟩
        intro art hart
        rcases hmem art hart with hin | ⟨hnotin, a, hfind, heqa⟩
        · exact Or.inl hin
        · refine Or.inr ⟨hnotin, a, ?_, heqa⟩
          rw [List.find?_cons_of_neg, hfind]
          intro hpx
          rw [Bool.and_eq_true, beq_iff_eq] at hpx
          exact hnotin (hpx.2 ▸ hlinkmem)
      · have hstep : parseStep h acc x = acc ++ [mkArticle h x] := by
          unfold parseStep
          rw [if_pos hk]
          dsimp only
          rw [if_neg hdup]
        rw [hstep]
        have hlinknot : ¬ resolveLink x.href ∈ links acc := by
          intro hmem'
          apply hdup
          rw [List.any_eq_true]
          simp only [links, List.mem_map] at hmem'
          obtain ⟨b, hb, hbl⟩ := hmem'
          exact ⟨b, hb, by rw [beq_iff_eq, hbl, mkArticle_link]⟩
        have hlinks' : links (acc ++ [mkArticle h x]) = links acc ++ [resolveLink x.href] := by
          simp [links, mkArticle_link]
        have hn2 : (links (acc ++ [mkArticle h x])).Nodup := by
          rw [hlinks']
          rw [List.nodup_append]
          refine ⟨hn, List.nodup_singleton _, ?_⟩
          intro y hy
          simp only [List.mem_singleton]
          intro hyx
          exact hlinknot (hyx ▸ hy)
        obtain ⟨hn', hmem⟩ := ih (acc ++ [mkArticle h x]) hn2
        refine ⟨hn', ?_⟩
        intro art hart
        rcases hmem art hart with hin | ⟨hnotin, a, hfind, heqa⟩
        · rcases List.mem_append.mp hin with hin' | hin'
          · exact Or.inl hin'
          · rw [List.mem_singleton] at hin'
            subst hin'
            refine Or.inr ⟨by rw [mkArticle_link]; exact hlinknot, x, ?_, rfl⟩
            rw [List.find?_cons_of_pos]
            rw [Bool.and_eq_true, beq_iff_eq]
            exact ⟨hk, (mkArticle_link h x).symm⟩
        · have hnot1 : ¬ art.link ∈ links acc := by
            intro hmem'
            apply hnotin
            rw [hlinks']
            exact List.mem_append_left _ hmem'
          have hnot2 : art.link ≠ resolveLink x.href := by
            intro heql
            apply hnotin
            rw [hlinks', heql]
            exact List.mem_append_right _ (List.mem_singleton_self _)
          refine Or.inr ⟨hnot1, a, ?_, heqa⟩
          rw [List.find?_cons_of_neg, hfind]
          intro hpx
          rw [Bool.and_eq_true, beq_iff_eq] at hpx
          exact hnot2 hpx.2.symm
    · have hstep : parseStep h acc x = acc := by
        unfold parseStep
        rw [if_neg hk]
      rw [hstep]
      obtain ⟨hn', hmem⟩ := ih acc hn
      refine ⟨hn', ?_⟩
      intro art hart
      rcases hmem art hart with hin | ⟨hnotin, a, hfind, heqa⟩
      · exact Or.inl hin
      · refine Or.inr ⟨hnotin, a, ?_, heqa⟩
        rw [List.find?_cons_of_neg, hfind]
        intro hpx
        rw [Bool.and_eq_true] at hpx
        exact hk hpx.1

theorem parse_exc_eq_filter (h : List Char → Int) (raises : Anchor → Bool) :
    ∀ (l : List Anchor) (acc : List Article),
      l.foldl (parseStepExc h raises) acc =
        (l.filter (fun a => !(raises a))).foldl (parseStep h) acc := by
  intro l
  induction l with
  | nil => intro acc; rfl
  | cons x xs ih =>
    intro acc
    by_cases hr : raises x = true
    · simp only [List.foldl_cons, List.filter_cons, hr, Bool.not_true]
      have hstep : parseStepExc h raises acc x = acc := by
        unfold parseStepExc; rw [if_pos hr]
      rw [hstep]
      exact ih acc
    · have hrf : raises x = false := Bool.not_eq_true _ ▸ hr
      simp only [List.foldl_cons, List.filter_cons, hrf, Bool.not_false]
      have hstep : parseStepExc h raises acc x = parseStep h acc x := by
        unfold parseStepExc; rw [if_neg hr]
      rw [hstep]
      exact ih (parseStep h acc x)

/-! ## The claims -/

/-- C1: for the anchor text `"New Model ReleaseEngineeringJan 5, 2024"`
(with a qualifying href), the parser produces one article whose date is
2024-01-05 UTC and whose title is exactly `"New Model Release"`: the
`<Month-abbrev> <day>, <year>` pattern is matched in the text, parsed as a
UTC timestamp, and the title is the text with everything from
`"Engineering"` immediately followed by the matched month abbreviation
onward removed, then stripped. -/
theorem claim_C1 : ∀ h : List Char → Int,
    parse_engineering_html h
        [⟨"/index/new-model".data, "New Model ReleaseEngineeringJan 5, 2024".data⟩] =
      [{ title := "New Model Release".data,
         link := "https://openai.com/index/new-model".data,
         date := daysFromCivil 2024 1 5,
         category := "Engineering".data,
         description := "New Model Release".data }] := by
  intro h
  rfl

/-- C2: `stable_fallback_date` returns the fixed epoch 2023-01-01 UTC plus
(non-negative hash modulo 730) days; it is deterministic in the identifier
and hash behaviour, and the result always lies within
[2023-01-01, 2024-12-31]. -/
theorem claim_C2 : ∀ (h : List Char → Int) (identifier : List Char),
    stable_fallback_date h identifier =
      daysFromCivil 2023 1 1 + (h identifier).natAbs % 730 ∧
    daysFromCivil 2023 1 1 ≤ stable_fallback_date h identifier ∧
    stable_fallback_date h identifier ≤ daysFromCivil 2024 12 31 := by
  intro h identifier
  refine ⟨rfl, Nat.le_add_right _ _, ?_⟩
  unfold stable_fallback_date
  have h1 : (h identifier).natAbs % 730 < 730 := Nat.mod_lt _ (by decide)
  have h2 : daysFromCivil 2023 1 1 = 738521 := by decide
  have h3 : daysFromCivil 2024 12 31 = 739251 := by decide
  omega

/-- C8: if the parser returns an empty article list, the orchestrator
returns the failure value `false` and writes no feed file. -/
theorem claim_C8 : ∀ (h : List Char → Int) (anchors : List Anchor),
    parse_engineering_html h anchors = [] →
    mainModel h anchors = (false, none) := by
  intro h anchors hempty
  unfold mainModel
  rw [hempty]
  rfl

/-- Witness for C8 at the empty anchor list. -/
theorem claim_C8_witness : mainModel hashZero [] = (false, none) :=
  claim_C8 hashZero [] rfl

/-- C9: any exception raised while processing a single anchor is caught
and only that anchor is skipped; the parser never propagates it and
returns the articles of all successfully processed anchors.  The oracle
`raises` marks the anchors whose processing raises. -/
theorem claim_C9 : ∀ (h : List Char → Int) (raises : Anchor → Bool) (anchors : List Anchor),
    parse_engineering_html_exc h raises anchors =
      parse_engineering_html h (anchors.filter (fun a => !(raises a))) := by
  intro h raises anchors
  unfold parse_engineering_html_exc parse_engineering_html
  exact parse_exc_eq_filter h raises anchors []

/-- C3: resolved links of the parser's result are pairwise distinct; when
several anchors resolve to the same link, the first-encountered anchor's
article is the one that appears (`find?` returns the first match). -/
theorem claim_C3 : ∀ (h : List Char → Int) (anchors : List Anchor),
    (links (parse_engineering_html h anchors)).Nodup ∧
    ∀ art ∈ parse_engineering_html h anchors,
      ∃ a, anchors.find? (fun x => keepAnchor x && (resolveLink x.href == art.link)) = some a ∧
        art = mkArticle h a := by
  intro h anchors
  obtain ⟨hn, hmem⟩ := parse_foldl_spec h anchors [] (by simp [links])
  refine ⟨hn, ?_⟩
  intro art hart
  rcases hmem art hart with hin | ⟨_, a, hfind, heq⟩
  · cases hin
  · exact ⟨a, hfind, heq⟩

/-- Witness for C3: two anchors resolving to the same link, one surviving
article, produced from the first anchor. -/
theorem claim_C3_witness :
    (links (parse_engineering_html hashZero [demoAnchorRel, demoAnchorAbs])).Nodup ∧
    ∃ a, ([demoAnchorRel, demoAnchorAbs].find?
        (fun x => keepAnchor x && (resolveLink x.href == (mkArticle hashZero demoAnchorRel).link)) =
          some a ∧ mkArticle hashZero demoAnchorRel = mkArticle hashZero a) :=
  ⟨(claim_C3 hashZero [demoAnchorRel, demoAnchorAbs]).1,
   (claim_C3 hashZero [demoAnchorRel, demoAnchorAbs]).2
     (mkArticle hashZero demoAnchorRel) (by decide)⟩

/-- C4: every returned article comes from an anchor whose href contains
the path marker `"/index/"` and whose visible text has length at least
20. -/
theorem claim_C4 : ∀ (h : List Char → Int) (anchors : List Anchor) (art : Article),
    art ∈ parse_engineering_html h anchors →
    ∃ a ∈ anchors, ("/index/".data <:+: a.href) ∧ 20 ≤ a.text.length ∧ art = mkArticle h a := by
  intro h anchors art hart
  obtain ⟨_, hmem⟩ := parse_foldl_spec h anchors [] (by simp [links])
  rcases hmem art hart with hin | ⟨_, a, hfind, heq⟩
  · cases hin
  · have hpa := List.find?_some hfind
    have hmema := List.mem_of_find?_eq_some hfind
    rw [Bool.and_eq_true] at hpa
    have hk := hpa.1
    unfold keepAnchor at hk
    simp only [Bool.and_eq_true, decide_eq_true_eq] at hk
    exact ⟨a, hmema, hk.1, hk.2, heq⟩

/-- Witness for C4 at a concrete qualifying anchor. -/
theorem claim_C4_witness :
    ∃ a ∈ [demoAnchorRel], ("/index/".data <:+: a.href) ∧ 20 ≤ a.text.length ∧
      mkArticle hashZero demoAnchorRel = mkArticle hashZero a :=
  claim_C4 hashZero [demoAnchorRel] (mkArticle hashZero demoAnchorRel) (by decide)

/-- C5: every article the parser returns has a non-empty link and a valid
(positive rata-die) UTC-midnight timestamp — the fallback generator
guarantees a date when parsing fails. -/
theorem claim_C5 : ∀ (h : List Char → Int) (anchors : List Anchor) (art : Article),
    art ∈ parse_engineering_html h anchors → art.link ≠ [] ∧ 0 < art.date := by
  intro h anchors art hart
  obtain ⟨_, hmem⟩ := parse_foldl_spec h anchors [] (by simp [links])
  rcases hmem art hart with hin | ⟨_, a, hfind, heq⟩
  · cases hin
  · have hpa := List.find?_some hfind
    rw [Bool.and_eq_true] at hpa
    have hk := hpa.1
    unfold keepAnchor at hk
    simp only [Bool.and_eq_true, decide_eq_true_eq] at hk
    subst heq
    constructor
    · rw [mkArticle_link]
      have hhne : a.href ≠ [] := by
        intro hnil
        have := hk.1
        rw [hnil] at this
        have hlen := this.length_le
        simp at hlen
      unfold resolveLink
      by_cases hsl : ("/".data).isPrefixOf a.href = true
      · rw [if_pos hsl]
        simp
      · rw [if_neg hsl]
        exact hhne
    · exact mkArticle_date_pos h a

/-- Witness for C5 at a concrete anchor. -/
theorem claim_C5_witness :
    (mkArticle hashZero demoAnchorAbs).link ≠ [] ∧ 0 < (mkArticle hashZero demoAnchorAbs).date :=
  claim_C5 hashZero [demoAnchorAbs] (mkArticle hashZero demoAnchorAbs) (by decide)

/-- C7: the feed writer orders entries by date descending; in particular
articles dated 2024-01-01, 2024-03-01, 2024-02-01 appear in the order
2024-03-01, 2024-02-01, 2024-01-01. -/
theorem claim_C7 : ∀ (articles : List Article),
    List.Pairwise (fun a b : Article => b.date ≤ a.date) (generate_rss_feed articles) ∧
    (generate_rss_feed
        [⟨"a".data, "l1".data, daysFromCivil 2024 1 1, "Engineering".data, "a".data⟩,
         ⟨"b".data, "l2".data, daysFromCivil 2024 3 1, "Engineering".data, "b".data⟩,
         ⟨"c".data, "l3".data, daysFromCivil 2024 2 1, "Engineering".data, "c".data⟩]).map
        Article.date =
      [daysFromCivil 2024 3 1, daysFromCivil 2024 2 1, daysFromCivil 2024 1 1] := by
  intro articles
  constructor
  · have htrans : ∀ a b c : Article,
        (fun a b : Article => decide (b.date ≤ a.date)) a b →
        (fun a b : Article => decide (b.date ≤ a.date)) b c →
        (fun a b : Article => decide (b.date ≤ a.date)) a c := by
      intro a b c h1 h2
      simp only [decide_eq_true_eq] at h1 h2 ⊢
      omega
    have htotal : ∀ a b : Article,
        ((fun a b : Article => decide (b.date ≤ a.date)) a b ||
         (fun a b : Article => decide (b.date ≤ a.date)) b a) := by
      intro a b
      simp only [Bool.or_eq_true, decide_eq_true_eq]
      omega
    have hs := @List.sorted_mergeSort Article
      (fun a b : Article => decide (b.date ≤ a.date)) htrans htotal articles
    unfold generate_rss_feed
    exact hs.imp (fun hab => by simpa using hab)
  · have e1 : daysFromCivil 2024 1 1 = 738886 := by decide
    have e2 : daysFromCivil 2024 3 1 = 738946 := by decide
    have e3 : daysFromCivil 2024 2 1 = 738917 := by decide
    rw [e1, e2, e3]
    simp [generate_rss_feed, List.mergeSort, List.splitInTwo, List.splitAt,
      List.splitAt.go, List.merge]

/-- C10: when the date falls back to the hash, the identifier hashed is
the raw href exactly as written — never the resolved link and never the
title; two spellings of the same resolved link thus get (for a hash
separating them mod 730) different fallback dates. -/
theorem claim_C10 : ∀ (h : List Char → Int),
    (∀ a : Anchor,
      (dateSearch a.text = none ∨ ∃ s, dateSearch a.text = some s ∧ strptime_bdY s = none) →
      (mkArticle h a).date = stable_fallback_date h a.href) ∧
    resolveLink "/index/x".data = resolveLink "https://openai.com/index/x".data ∧
    ((h "/index/x".data).natAbs % 730 ≠ (h "https://openai.com/index/x".data).natAbs % 730 →
      (mkArticle h ⟨"/index/x".data, navText⟩).date ≠
        (mkArticle h ⟨"https://openai.com/index/x".data, navText⟩).date) := by
  intro h
  refine ⟨fun a hfb => mkArticle_date_of_fallback hfb, rfl, ?_⟩
  intro hne heq
  apply hne
  have h1 : (mkArticle h ⟨"/index/x".data, navText⟩).date =
      stable_fallback_date h "/index/x".data :=
    mkArticle_date_of_fallback (Or.inl (by decide))
  have h2 : (mkArticle h ⟨"https://openai.com/index/x".data, navText⟩).date =
      stable_fallback_date h "https://openai.com/index/x".data :=
    mkArticle_date_of_fallback (Or.inl (by decide))
  rw [h1, h2] at heq
  unfold stable_fallback_date at heq
  omega

/-- Witness for C10 with the length hash: the two spellings hash apart
mod 730, so their fallback dates differ while the resolved link is the
same. -/
theorem claim_C10_witness :
    (mkArticle hashLen ⟨"/index/x".data, navText⟩).date =
      stable_fallback_date hashLen "/index/x".data ∧
    (mkArticle hashLen ⟨"/index/x".data, navText⟩).date ≠
      (mkArticle hashLen ⟨"https://openai.com/index/x".data, navText⟩).date :=
  ⟨(claim_C10 hashLen).1 ⟨"/index/x".data, navText⟩ (Or.inl (by decide)),
   (claim_C10 hashLen).2.2 (by decide)⟩

/-- C6 counterexample: an anchor text that contains a matched date but no
`"Engineering"` marker keeps the date inside the produced title, refuting
the claim that a matched date substring never appears in the title. -/
theorem claim_C6_counterexample :
    dateSearch "Some long title here Jan 5, 2024".data = some "Jan 5, 2024".data ∧
    (mkArticle hashZero ⟨"/index/x".data, "Some long title here Jan 5, 2024".data⟩).title =
      "Some long title here Jan 5, 2024".data ∧
    ("Jan 5, 2024".data <:+:
      (mkArticle hashZero ⟨"/index/x".data, "Some long title here Jan 5, 2024".data⟩).title) ∧
    parse_engineering_html hashZero
        [⟨"/index/x".data, "Some long title here Jan 5, 2024".data⟩] =
      [mkArticle hashZero ⟨"/index/x".data, "Some long title here Jan 5, 2024".data⟩] :=
  ⟨rfl, rfl, by decide, rfl⟩

/-- C6 (amended): whenever the anchor text contains no newline and has the
form `t ++ "Engineering" ++ s ++ r` with `s` the leftmost date match
(starting right after that `"Engineering"`), the matched date substring
does not appear in the produced title. -/
theorem claim_C6_amended : ∀ (h : List Char → Int) (a : Anchor) (t s r : List Char),
    ¬ '\n' ∈ a.text →
    a.text = t ++ "Engineering".data ++ s ++ r →
    dateSearchPos 0 a.text = some (t.length + 11, s) →
    ¬ s <:+: (mkArticle h a).title := by
  intro h a t s r hnl hdec hpos hinf
  have hds : dateSearch a.text = some s := by
    unfold dateSearch
    rw [hpos]
    rfl
  have htitle : (mkArticle h a).title = strip (engSub a.text) := mkArticle_title_of_found hds
  obtain ⟨hmatch, hleft⟩ := dateSearchPos_spec hpos
  have hassoc : a.text = t ++ ("Engineering".data ++ (s ++ r)) := by
    rw [hdec]; simp [List.append_assoc]
  have hassoc2 : a.text = (t ++ "Engineering".data) ++ (s ++ r) := by
    rw [hdec]; simp [List.append_assoc]
  have hdrop1 : a.text.drop t.length = "Engineering".data ++ (s ++ r) := by
    rw [hassoc]; exact List.drop_left' rfl
  have hlen11 : (t ++ "Engineering".data).length = t.length + 11 := by simp
  have hdrop2 : a.text.drop (t.length + 11) = s ++ r := by
    rw [hassoc2]; exact List.drop_left' hlen11
  rw [hdrop2] at hmatch
  obtain ⟨m, ws1, ds, ws2, ys, hmem, hseq, hws1ne, _, _, _, _, _, _, _, _⟩ :=
    dateMatchAt_shape hmatch
  have hm3 : m.length = 3 := monthAbbrevs_len m hmem
  have hslen : 3 ≤ s.length := by
    rw [hseq]
    simp only [List.length_append]
    omega
  have hmpre : m <+: s ++ r := by
    rw [hseq]
    simp only [List.append_assoc]
    exact List.prefix_append m _
  have hengAt : engMatchAt (a.text.drop t.length) = true := by
    unfold engMatchAt engMonthAt
    rw [Bool.and_eq_true, Bool.and_eq_true]
    refine ⟨⟨?_, ?_⟩, ?_⟩
    · rw [hdrop1, List.isPrefixOf_iff_prefix]
      exact List.prefix_append _ _
    · rw [hdrop1]
      have hd11 : ("Engineering".data ++ (s ++ r)).drop 11 = s ++ r :=
        List.drop_left' (by decide)
      rw [hd11, List.any_eq_true]
      exact ⟨m, hmem, List.isPrefixOf_iff_prefix.mpr hmpre⟩
    · unfold engTailOk
      have hnomem : ¬ '\n' ∈ ((a.text.drop t.length).drop 14).dropLast := by
        intro hx
        exact hnl (List.mem_of_mem_drop (List.mem_of_mem_drop ((List.dropLast_sublist _).subset hx)))
      have hcf : ((a.text.drop t.length).drop 14).dropLast.contains '\n' = false := by
        simpa [List.contains] using hnomem
      rw [hcf]
      rfl
  obtain ⟨q, hq, hmin⟩ := engSub_eq_take hnl
  have hqle : q ≤ t.length := hmin t.length hengAt
  rw [htitle] at hinf
  have hinf2 : s <:+: a.text.take q := by
    have h1 : strip (engSub a.text) <:+: engSub a.text := strip_within _
    have h2 := hinf.trans h1
    rwa [hq] at h2
  obtain ⟨u, v, huv⟩ := hinf2
  have hulen : u.length + (s.length + v.length) = (a.text.take q).length := by
    have := congrArg List.length huv
    simpa [List.length_append] using this
  have htq : (a.text.take q).length ≤ q := by
    rw [List.length_take]
    exact Nat.min_le_left _ _
  have hu : u.length < t.length + 11 := by omega
  have hsplitText : a.text = u ++ (s ++ (v ++ a.text.drop q)) := by
    conv_lhs => rw [← List.take_append_drop q a.text]
    rw [← huv]
    simp [List.append_assoc]
  have hdropu : a.text.drop u.length = s ++ (v ++ a.text.drop q) := by
    conv_lhs => rw [hsplitText]
    exact List.drop_left' rfl
  have hmono : dateMatchAt (a.text.drop u.length) = some s := by
    apply dateMatchAt_mono hmatch
    rw [hdropu]
    exact List.prefix_append s _
  have hnone := hleft u.length hu
  rw [hnone] at hmono
  exact Option.noConfusion hmono

/-- Witness for the amended C6 at the specification's worked example. -/
theorem claim_C6_witness :
    ¬ ("Jan 5, 2024".data <:+:
      (mkArticle hashZero
        ⟨"/index/new-model".data, "New Model ReleaseEngineeringJan 5, 2024".data⟩).title) :=
  claim_C6_amended hashZero
    ⟨"/index/new-model".data, "New Model ReleaseEngineeringJan 5, 2024".data⟩
    "New Model Release".data "Jan 5, 2024".data []
    (by decide) (by decide) (by decide)

end OpenAIEngBlog
